import Mathlib

/-!
Shallow embedding of the PyGroupedPool admission-control pool (`pool.py`)
and proofs checking the natural-language specification against it.

Modelling conventions:
* A tag is `Option String`; `none` is the distinguished general tag
  (Python uses the literal `None` key).
* The registry `self._tags` is an insertion-ordered association list from
  tags to entries `{limit, sem}`; `limit : Nat` mirrors the stored slot
  count and `sem : Int` mirrors the current counter of the
  `multiprocessing.Semaphore` (an unbounded counting semaphore, so
  releases may push it past `limit`).
* A blocking `sem.acquire()` is modelled as: it completes (decrementing
  the counter) only when the counter is at least one; otherwise the
  enclosing operation is reported as blocked (`hang`).  Loops carry fuel,
  and exhausting the fuel is also reported as blocked.
* Exceptions become explicit result constructors carrying the registry
  state at the moment of the raise, since Python leaves the mutated
  dictionaries in place when an exception propagates.
-/

namespace PyPool

/-- A tag key: `none` is the general pool, `some s` a named tag. -/
abbrev Tag := Option String

/-- One registry entry, mirroring the dict `{'limit': .., 'sem': ..}` built
by `PyPool._set`: `limit` is the stored slot count, `sem` the current value
of the unbounded counting semaphore. -/
structure TagEntry where
  limit : Nat
  sem : Int
deriving Repr, DecidableEq

/-- The tag registry `self._tags`: an insertion-ordered association list. -/
abbrev Tags := List (Tag × TagEntry)

/-- Dictionary lookup `self._tags[tag]` (as an `Option`). -/
def lookupTag : Tags → Tag → Option TagEntry
  | [], _ => none
  | (k, e) :: rest, t => if k = t then some e else lookupTag rest t

/-- Dictionary write `self._tags[tag] = {'limit': limit, 'sem': Semaphore(limit)}`
(`PyPool._set`): overwrite in place, or append a fresh key. The fresh
semaphore starts with `limit` permits. -/
def setTag : Tags → Tag → Nat → Tags
  | [], t, l => [(t, TagEntry.mk l l)]
  | (k, e) :: rest, t, l =>
    if k = t then (k, TagEntry.mk l l) :: rest else (k, e) :: setTag rest t l

/-- Update the entry stored under a key in place (no-op when absent).
Used to model mutation of the living dict entry objects. -/
def updateEntry : Tags → Tag → (TagEntry → TagEntry) → Tags
  | [], _, _ => []
  | (k, e) :: rest, t, f =>
    if k = t then (k, f e) :: rest else (k, e) :: updateEntry rest t f

/-- The test `PyPool._sem` performs: the tag has a usable semaphore exactly
when it is present in the registry and its `limit` is non-zero (Python
truthiness of `self._tags[tag]['limit']`); otherwise `_sem` returns `None`. -/
def hasSem (tags : Tags) (tag : Tag) : Bool :=
  match lookupTag tags tag with
  | none => false
  | some e => e.limit != 0

/-- Current semaphore counter of a tag (0 when the tag is absent). -/
def semAvail (tags : Tags) (tag : Tag) : Int :=
  match lookupTag tags tag with
  | none => 0
  | some e => e.sem

/-- Semaphore release on a tag's entry: counter goes up by one. -/
def releaseSem (tags : Tags) (tag : Tag) : Tags :=
  updateEntry tags tag (fun e => TagEntry.mk e.limit (e.sem + 1))

/-- Semaphore acquire on a tag's entry: counter goes down by one.  Callers
only take this step when the counter is positive (otherwise the acquire
blocks). -/
def acquireSem (tags : Tags) (tag : Tag) : Tags :=
  updateEntry tags tag (fun e => TagEntry.mk e.limit (e.sem - 1))

/-- Sum of all limits, as computed by `PyPool._recount_total`. -/
def totalLimit (tags : Tags) : Nat :=
  (tags.map (fun p => p.2.limit)).sum

/-! ### Construction (`PyPool.__init__`) -/

/-- Key normalization in the constructor loop: `if not k: k = None`, i.e.
a falsy key (the empty string for string keys) becomes the general tag. -/
def normKey (k : String) : Tag :=
  if k = "" then none else some k

/-- The constructor loop over the supplied `tags` mapping: for each pair it
normalizes the key, calls `_set`, and accumulates `tot`. -/
def processTags : Tags → Nat → List (String × Nat) → Tags × Nat
  | acc, tot, [] => (acc, tot)
  | acc, tot, kv :: rest =>
    processTags (setTag acc (normKey kv.1) kv.2) (tot + kv.2) rest

/-- The whole of `PyPool.__init__` restricted to registry construction:
returns `none` when construction raises (a negative general residue makes
`Semaphore` raise `ValueError`; a zero total fails the assertion in
`_recount_total`). -/
def initPool (limit : Nat) (tagsIn : List (String × Nat)) : Option Tags :=
  if tagsIn.isEmpty then
    let t := setTag [] none limit
    if totalLimit t > 0 then some t else none
  else
    let p := processTags [] 0 tagsIn
    if limit ≠ 0 ∧ limit ≠ p.2 then
      if limit < p.2 then none
      else
        let t := setTag p.1 none (limit - p.2)
        if totalLimit t > 0 then some t else none
    else
      if totalLimit p.1 > 0 then some p.1 else none

/-! ### Elastic resize (`PyPool.adjust`) -/

/-- Result of one loop iteration inside `adjust`: the new registry, the
registry at the moment an `IndexError` is raised, or a blocked acquire. -/
inductive LoopRes where
  | ok (tags : Tags)
  | err (tags : Tags)
  | blocked
deriving Repr, DecidableEq

/-- One iteration of the grow loop of `adjust`:
`dat['sem'].release(); dat['limit'] += 1`, then under `use_general_slots`
either transfer one slot out of the general entry or raise `IndexError`
when its limit is zero.  The general entry is re-read after the update so
that adjusting the general tag itself aliases correctly. -/
def growStep (tags : Tags) (tag : Tag) (useGen : Bool) : LoopRes :=
  let t1 := updateEntry tags tag (fun e => TagEntry.mk (e.limit + 1) (e.sem + 1))
  if useGen then
    match lookupTag t1 none with
    | none => LoopRes.blocked
    | some g =>
      if 0 < g.limit then
        if 1 ≤ g.sem then
          LoopRes.ok (updateEntry t1 none (fun e => TagEntry.mk (e.limit - 1) (e.sem - 1)))
        else LoopRes.blocked
      else LoopRes.err t1
  else LoopRes.ok t1

/-- One iteration of the shrink loop of `adjust`:
`dat['sem'].acquire()` (blocking while the counter is non-positive),
`dat['limit'] -= 1`, then under `use_general_slots` one slot is granted
back to the general entry. -/
def shrinkStep (tags : Tags) (tag : Tag) (useGen : Bool) : LoopRes :=
  match lookupTag tags tag with
  | none => LoopRes.blocked
  | some d =>
    if 1 ≤ d.sem then
      let t1 := updateEntry tags tag (fun e => TagEntry.mk (e.limit - 1) (e.sem - 1))
      if useGen then
        LoopRes.ok (updateEntry t1 none (fun e => TagEntry.mk (e.limit + 1) (e.sem + 1)))
      else LoopRes.ok t1
    else LoopRes.blocked

/-- The grow loop `while dat['limit'] < new_limit`, with fuel. -/
def growLoop (fuel : Nat) (tags : Tags) (tag : Tag) (newLimit : Nat) (useGen : Bool) : LoopRes :=
  match lookupTag tags tag with
  | none => LoopRes.ok tags
  | some d =>
    if d.limit < newLimit then
      match fuel with
      | 0 => LoopRes.blocked
      | Nat.succ f =>
        match growStep tags tag useGen with
        | LoopRes.ok t2 => growLoop f t2 tag newLimit useGen
        | LoopRes.err t2 => LoopRes.err t2
        | LoopRes.blocked => LoopRes.blocked
    else LoopRes.ok tags

/-- The shrink loop `while dat['limit'] > new_limit`, with fuel. -/
def shrinkLoop (fuel : Nat) (tags : Tags) (tag : Tag) (newLimit : Nat) (useGen : Bool) : LoopRes :=
  match lookupTag tags tag with
  | none => LoopRes.ok tags
  | some d =>
    if newLimit < d.limit then
      match fuel with
      | 0 => LoopRes.blocked
      | Nat.succ f =>
        match shrinkStep tags tag useGen with
        | LoopRes.ok t2 => shrinkLoop f t2 tag newLimit useGen
        | LoopRes.err t2 => LoopRes.err t2
        | LoopRes.blocked => LoopRes.blocked
    else LoopRes.ok tags

/-- Result of a whole `adjust` call: normal return, `IndexError` escape,
failed `assert self._total > 0` in `_recount_total`, or a call that never
returns (a blocked acquire, or loop fuel exhausted). -/
inductive AdjRes where
  | ok (tags : Tags)
  | indexError (tags : Tags)
  | assertFail (tags : Tags)
  | hang
deriving Repr, DecidableEq

/-- `PyPool._recount_total`: recompute the total and assert it positive. -/
def recountTotal (tags : Tags) : AdjRes :=
  if totalLimit tags > 0 then AdjRes.ok tags else AdjRes.assertFail tags

/-- `PyPool.adjust(tag, new_limit, use_general_slots)`.  Clamps the new
limit at zero, pre-creates a zero general entry when transferring, creates
unknown tags directly, and otherwise runs the grow loop then the shrink
loop before `_recount_total`. -/
def adjustModel (fuel : Nat) (tags : Tags) (tag : Tag) (newLimit : Int) (useGen : Bool) : AdjRes :=
  let nl : Nat := newLimit.toNat
  let known := (lookupTag tags tag).isSome
  let tags1 := if useGen && (lookupTag tags none).isNone then setTag tags none 0 else tags
  if known then
    match growLoop fuel tags1 tag nl useGen with
    | LoopRes.err t2 => AdjRes.indexError t2
    | LoopRes.blocked => AdjRes.hang
    | LoopRes.ok t2 =>
      match shrinkLoop fuel t2 tag nl useGen with
      | LoopRes.err t3 => AdjRes.indexError t3
      | LoopRes.blocked => AdjRes.hang
      | LoopRes.ok t3 => recountTotal t3
  else
    recountTotal (setTag tags1 tag nl)

/-- Limit recorded for a tag, as reported by `PyPool.get_tags`. -/
def getTag (tags : Tags) (tag : Tag) : Option Nat :=
  (lookupTag tags tag).map TagEntry.limit

/-! ### Submission gate (`PyPool.put`) -/

/-- Environment observed by one iteration of the `put` retry loop: whether
the stop event is set when the `while` condition is evaluated, and whether
the timed `acquire` on the tag semaphore respectively the general
semaphore would succeed during this round. -/
structure PutProbe where
  stop : Bool
  tagAcq : Bool
  genAcq : Bool
deriving Repr, DecidableEq

/-- Outcome of a `put` call: a dispatch (recording whether the general
semaphore supplied the token), a silent return because the pool is
stopping, the `KeyError` raise, or a call still blocked when the supplied
schedule of probes runs out. -/
inductive PutRes where
  | dispatched (viaGeneral : Bool)
  | noop
  | keyError
  | blocked
deriving Repr, DecidableEq

/-- The retry loop of `PyPool.put` over a schedule of probes.  `hasTag` and
`hasGen` are the captured `sems = [self._sem(tag), self._sem(None)]`
presence bits; the loop exits through `return self._run(..)` on a
successful acquire, and after a normal exit raises `KeyError` exactly when
the stop event is not set. -/
def putLoop (hasTag hasGen : Bool) : List PutProbe → PutRes
  | [] => PutRes.blocked
  | p :: rest =>
    if !(hasTag || hasGen) || p.stop then
      if p.stop then PutRes.noop else PutRes.keyError
    else if hasTag && p.tagAcq then PutRes.dispatched false
    else if hasGen && p.genAcq then PutRes.dispatched true
    else putLoop hasTag hasGen rest

/-- `PyPool.put` at the level of admission control: the captured semaphore
presences come from `_sem` applied to the requested tag and to the general
tag. -/
def putModel (tags : Tags) (tag : Tag) (sched : List PutProbe) : PutRes :=
  putLoop (hasSem tags tag) (hasSem tags none) sched

/-! ### Result monitor (`PyPool._monitor` and `PyPool._finish`) -/

/-- One entry of `self._pending`: the tag recorded at dispatch and whether
per-task result and error callbacks were supplied. -/
structure PendingTask where
  tag : Tag
  hasCallback : Bool
  hasError : Bool
deriving Repr, DecidableEq

/-- How a resolved substrate handle behaves when `res.get()` is called:
either it returns a value, or it re-raises the task's exception. -/
inductive TaskOutcome where
  | success (v : Nat)
  | failure
deriving Repr, DecidableEq

/-- Observable actions of the monitor while reconciling one finished task,
in execution order. -/
inductive MEvent where
  | releaseTok (t : Tag)
  | deliverPerTask (v : Nat)
  | deliverPoolCb (v : Nat)
  | enqueueResult (v : Nat)
  | errorPerTask
  | errorPool
  | monitorCrash
deriving Repr, DecidableEq

/-- `PyPool._finish(res, tag, callback)`.  It first calls
`self._sem(tag).release()`: when `_sem` returns `None` this raises an
`AttributeError` (modelled by the `Except.error` branch) before anything
else happens; otherwise one token is released and the value routed to the
per-task callback, the pool callback, or the iteration queue, unless the
pool is stopping. -/
def finishModel (tags : Tags) (stopping poolCb iteration : Bool) (f : PendingTask)
    (v : Nat) : Except Unit (Tags × List MEvent) :=
  if hasSem tags f.tag then
    let t2 := releaseSem tags f.tag
    if stopping then Except.ok (t2, [MEvent.releaseTok f.tag])
    else if f.hasCallback then
      Except.ok (t2, [MEvent.releaseTok f.tag, MEvent.deliverPerTask v])
    else if poolCb then
      Except.ok (t2, [MEvent.releaseTok f.tag, MEvent.deliverPoolCb v])
    else if iteration then
      Except.ok (t2, [MEvent.releaseTok f.tag, MEvent.enqueueResult v])
    else Except.ok (t2, [MEvent.releaseTok f.tag])
  else Except.error ()

/-- Error routing of the `except` branch in `PyPool._monitor`: the task's
own handler, else the pool-wide handler, else the bare `raise` inside the
monitor thread. -/
def errorRoute (hasErrH : Bool) (f : PendingTask) : MEvent :=
  if f.hasError then MEvent.errorPerTask
  else if hasErrH then MEvent.errorPool
  else MEvent.monitorCrash

/-- The body of `PyPool._monitor` for one finished pending task: try
`res.get()` and `_finish`; any exception out of either (the task's own
failure, or the `AttributeError` raised by `_finish` when the tag has no
semaphore) is routed through the error chain and the registry is left
untouched. -/
def monitorStep (tags : Tags) (stopping poolCb iteration hasErrH : Bool)
    (f : PendingTask) (out : TaskOutcome) : Tags × List MEvent :=
  match out with
  | TaskOutcome.success v =>
    match finishModel tags stopping poolCb iteration f v with
    | Except.ok r => r
    | Except.error _ => (tags, [errorRoute hasErrH f])
  | TaskOutcome.failure => (tags, [errorRoute hasErrH f])

/-! ### Iterator (`PyPool.iter`) -/

/-- Environment observed by one cycle of the iterator loop: the stop flag
at the `while` head, whether `self._cb` is set, the outcome of the timed
queue read (`some v` or the `Empty` timeout), the stop flag re-read inside
the `Empty` handler, and the emptiness of the pending list and of the
ingest-stream list. -/
structure IterCycle where
  stop : Bool
  cb : Bool
  read : Option Nat
  stopAfterEmpty : Bool
  pendingEmpty : Bool
  ingestEmpty : Bool
deriving Repr, DecidableEq

/-- How a run of the iterator generator ends. -/
inductive IterTerm where
  | finished
  | cbError
  | fuelOut
deriving Repr, DecidableEq

/-- The loop of `PyPool.iter` over a schedule of cycles, carrying the `brk`
flag; returns the termination mode and the values yielded, in order. -/
def iterRun (brk : Bool) : List IterCycle → IterTerm × List Nat
  | [] => (IterTerm.fuelOut, [])
  | c :: rest =>
    if c.stop then (IterTerm.finished, [])
    else if c.cb then (IterTerm.cbError, [])
    else
      match c.read with
      | some v =>
        let r := iterRun false rest
        (r.1, v :: r.2)
      | none =>
        if c.stopAfterEmpty then (IterTerm.finished, [])
        else if c.pendingEmpty && c.ingestEmpty then
          if brk then (IterTerm.finished, [])
          else iterRun true rest
        else iterRun brk rest

/-- Entry of the generator: `if not self._iteration: raise`, then the loop
with `brk = False`. -/
def iterModel (iteration : Bool) (sched : List IterCycle) : Option (IterTerm × List Nat) :=
  if iteration then some (iterRun false sched) else none

/-- The `PyPool.callback` method: it stores the callback and performs no
check and no raise. -/
def setCallback (cb : Bool) (_oldCb : Bool) : Bool :=
  cb

/-! ### System steps and the capacity invariant -/

/-- Registry-level operations of the running system: a `put` admitted
through the tag's own pool, a `put` admitted through the general pool but
recorded under the requested tag, the monitor finishing a task with a
value or a failure, and an `adjust` call. -/
inductive PoolOp where
  | acquireOwn (tag : Tag)
  | acquireGeneral (tag : Tag)
  | finishOk (tag : Tag)
  | finishFail (tag : Tag)
  | opAdjust (tag : Tag) (newLimit : Int) (useGen : Bool)
deriving Repr, DecidableEq

/-- Effect of one operation on the registry; `none` when the operation is
not enabled (no token available for an acquire, or an `adjust` that never
returns).  An `adjust` that raises still leaves its mutated registry, and
a monitor finish whose release raises leaves the registry untouched. -/
def opStep (fuel : Nat) (tags : Tags) : PoolOp → Option Tags
  | PoolOp.acquireOwn t =>
    if hasSem tags t && decide (1 ≤ semAvail tags t) then some (acquireSem tags t) else none
  | PoolOp.acquireGeneral _ =>
    if hasSem tags none && decide (1 ≤ semAvail tags none) then some (acquireSem tags none)
    else none
  | PoolOp.finishOk t =>
    if hasSem tags t then some (releaseSem tags t) else some tags
  | PoolOp.finishFail _ => some tags
  | PoolOp.opAdjust t n g =>
    match adjustModel fuel tags t n g with
    | AdjRes.ok t2 => some t2
    | AdjRes.indexError t2 => some t2
    | AdjRes.assertFail t2 => some t2
    | AdjRes.hang => none

/-- Run a list of operations from an initial registry. -/
def runOps (fuel : Nat) (tags : Tags) : List PoolOp → Option Tags
  | [] => some tags
  | op :: rest =>
    match opStep fuel tags op with
    | some t2 => runOps fuel t2 rest
    | none => none

/-- The capacity invariant claimed by the specification:
`0 ≤ available(tokens) ≤ capacity` for every tag. -/
def Inv (tags : Tags) : Prop :=
  ∀ p ∈ tags, 0 ≤ p.2.sem ∧ p.2.sem ≤ (p.2.limit : Int)

instance : DecidablePred Inv := fun tags => by
  unfold Inv
  infer_instance

/-- The lower half of the capacity invariant on its own: no tag's
available count is ever negative. -/
def SemNonneg (tags : Tags) : Prop :=
  ∀ p ∈ tags, 0 ≤ p.2.sem

instance : DecidablePred SemNonneg := fun tags => by
  unfold SemNonneg
  infer_instance

/-- Iterator cycle in which the timed read finds the queue empty, the pool
is not stopping, no pool callback is set, and both the pending list and the
ingest-stream list are observed empty. -/
def QuietCycle (c : IterCycle) : Prop :=
  c.stop = false ∧ c.cb = false ∧ c.read = none ∧ c.stopAfterEmpty = false ∧
    c.pendingEmpty = true ∧ c.ingestEmpty = true

instance : DecidablePred QuietCycle := fun c => by
  unfold QuietCycle
  infer_instance

/-- Entry-wise invariant over the whole registry. -/
def EntryInv (P : TagEntry → Prop) (tags : Tags) : Prop :=
  ∀ p ∈ tags, P p.2

/-- Registry tags kept where the invariant lives after a loop iteration. -/
def loopTags : LoopRes → Option Tags
  | LoopRes.ok t => some t
  | LoopRes.err t => some t
  | LoopRes.blocked => none

/-- Registry left behind by a completed (possibly raising) `adjust`. -/
def adjTags : AdjRes → Option Tags
  | AdjRes.ok t => some t
  | AdjRes.indexError t => some t
  | AdjRes.assertFail t => some t
  | AdjRes.hang => none

/-! ### Registry lemmas -/

theorem lookupTag_mem {t : Tags} {k : Tag} {e : TagEntry}
    (h : lookupTag t k = some e) : (k, e) ∈ t := by
  induction t with
  | nil => simp [lookupTag] at h
  | cons hd tl ih =>
    rw [show hd = (hd.1, hd.2) from rfl] at h ⊢
    rw [lookupTag] at h
    by_cases hk : hd.1 = k
    · simp [hk] at h
      subst hk
      subst h
      exact List.mem_cons_self _ _
    · simp [hk] at h
      exact List.mem_cons_of_mem _ (ih h)

theorem lookupTag_updateEntry_self {t : Tags} {k : Tag} {f : TagEntry → TagEntry} :
    lookupTag (updateEntry t k f) k = (lookupTag t k).map f := by
  induction t with
  | nil => simp [lookupTag, updateEntry]
  | cons hd tl ih =>
    rw [show hd = (hd.1, hd.2) from rfl]
    rw [updateEntry, lookupTag]
    by_cases hk : hd.1 = k
    · simp [hk, lookupTag]
    · simp [hk, lookupTag, ih]

theorem lookupTag_updateEntry_ne {t : Tags} {k k2 : Tag} {f : TagEntry → TagEntry}
    (h : k ≠ k2) : lookupTag (updateEntry t k f) k2 = lookupTag t k2 := by
  induction t with
  | nil => simp [lookupTag, updateEntry]
  | cons hd tl ih =>
    rw [show hd = (hd.1, hd.2) from rfl]
    rw [updateEntry, lookupTag]
    by_cases hk : hd.1 = k
    · subst hk
      simp [lookupTag, h, ih]
    · simp [hk, lookupTag, ih]

theorem lookupTag_setTag_self {t : Tags} {k : Tag} {l : Nat} :
    lookupTag (setTag t k l) k = some (TagEntry.mk l l) := by
  induction t with
  | nil => simp [lookupTag, setTag]
  | cons hd tl ih =>
    rw [show hd = (hd.1, hd.2) from rfl]
    rw [setTag]
    by_cases hk : hd.1 = k
    · simp [hk, lookupTag]
    · simp [hk, lookupTag, ih]

theorem lookupTag_setTag_ne {t : Tags} {k k2 : Tag} {l : Nat}
    (h : k ≠ k2) : lookupTag (setTag t k l) k2 = lookupTag t k2 := by
  induction t with
  | nil => simp [lookupTag, setTag, h]
  | cons hd tl ih =>
    rw [show hd = (hd.1, hd.2) from rfl]
    rw [setTag]
    by_cases hk : hd.1 = k
    · subst hk
      simp [lookupTag, h, ih]
    · simp [hk, lookupTag, ih]

theorem updateEntry_updateEntry {t : Tags} {k : Tag} {f g : TagEntry → TagEntry} :
    updateEntry (updateEntry t k f) k g = updateEntry t k (fun e => g (f e)) := by
  induction t with
  | nil => simp [updateEntry]
  | cons hd tl ih =>
    rw [show hd = (hd.1, hd.2) from rfl]
    rw [updateEntry]
    by_cases hk : hd.1 = k
    · simp [hk, updateEntry]
    · simp [hk, updateEntry, ih]

theorem updateEntry_lookup_id {t : Tags} {k : Tag} {e : TagEntry} {f : TagEntry → TagEntry}
    (hl : lookupTag t k = some e) (hf : f e = e) : updateEntry t k f = t := by
  induction t with
  | nil => simp [lookupTag] at hl
  | cons hd tl ih =>
    rw [show hd = (hd.1, hd.2) from rfl] at hl ⊢
    rw [lookupTag] at hl
    rw [updateEntry]
    by_cases hk : hd.1 = k
    · simp [hk] at hl
      subst hl
      simp [hk, hf]
    · simp [hk] at hl
      simp [hk, ih hl]

theorem entryInv_lookup {P : TagEntry → Prop} {t : Tags} {k : Tag} {e : TagEntry}
    (h : EntryInv P t) (hl : lookupTag t k = some e) : P e :=
  h (k, e) (lookupTag_mem hl)

theorem entryInv_updateEntry {P : TagEntry → Prop} {t : Tags} {k : Tag}
    {f : TagEntry → TagEntry} (h : EntryInv P t)
    (hf : ∀ e, lookupTag t k = some e → P (f e)) : EntryInv P (updateEntry t k f) := by
  induction t with
  | nil => simpa [updateEntry] using h
  | cons hd tl ih =>
    rw [show hd = (hd.1, hd.2) from rfl] at h hf ⊢
    rw [updateEntry]
    by_cases hk : hd.1 = k
    · rw [if_pos hk]
      intro p hp
      rcases List.mem_cons.mp hp with hp | hp
      · subst hp
        exact hf hd.2 (by simp [lookupTag, hk])
      · exact h p (List.mem_cons_of_mem _ hp)
    · rw [if_neg hk]
      intro p hp
      rcases List.mem_cons.mp hp with hp | hp
      · subst hp
        exact h _ (List.mem_cons_self _ _)
      · refine ih (fun q hq => h q (List.mem_cons_of_mem _ hq)) ?_ p hp
        intro e he
        exact hf e (by simp [lookupTag, hk, he])

theorem entryInv_setTag {P : TagEntry → Prop} {t : Tags} {k : Tag} {l : Nat}
    (h : EntryInv P t) (hl : P (TagEntry.mk l l)) : EntryInv P (setTag t k l) := by
  induction t with
  | nil =>
    intro p hp
    simp [setTag] at hp
    subst hp
    exact hl
  | cons hd tl ih =>
    rw [show hd = (hd.1, hd.2) from rfl] at h ⊢
    rw [setTag]
    by_cases hk : hd.1 = k
    · rw [if_pos hk]
      intro p hp
      rcases List.mem_cons.mp hp with hp | hp
      · subst hp
        exact hl
      · exact h p (List.mem_cons_of_mem _ hp)
    · rw [if_neg hk]
      intro p hp
      rcases List.mem_cons.mp hp with hp | hp
      · subst hp
        exact h _ (List.mem_cons_self _ _)
      · exact ih (fun q hq => h q (List.mem_cons_of_mem _ hq)) p hp

/-! ### Preservation of entry-wise invariants by `adjust` -/

theorem growStep_entryInv {P : TagEntry → Prop}
    (hinc : ∀ e, P e → P (TagEntry.mk (e.limit + 1) (e.sem + 1)))
    (hdec : ∀ e, P e → 0 < e.limit → 1 ≤ e.sem → P (TagEntry.mk (e.limit - 1) (e.sem - 1)))
    {t : Tags} {tag : Tag} {u : Bool} {t2 : Tags}
    (h : EntryInv P t) (hres : loopTags (growStep t tag u) = some t2) :
    EntryInv P t2 := by
  have ht1 : EntryInv P
      (updateEntry t tag (fun e => TagEntry.mk (e.limit + 1) (e.sem + 1))) :=
    entryInv_updateEntry h (fun e he => hinc e (entryInv_lookup h he))
  simp only [growStep] at hres
  by_cases hu : u
  · rw [if_pos hu] at hres
    cases hg : lookupTag
        (updateEntry t tag (fun e => TagEntry.mk (e.limit + 1) (e.sem + 1))) none with
    | none =>
      simp only [hg] at hres
      simp [loopTags] at hres
    | some g =>
      simp only [hg] at hres
      by_cases hgl : 0 < g.limit
      · rw [if_pos hgl] at hres
        by_cases hgs : 1 ≤ g.sem
        · rw [if_pos hgs] at hres
          simp [loopTags] at hres
          subst hres
          refine entryInv_updateEntry ht1 ?_
          intro e he
          rw [hg] at he
          cases he
          exact hdec g (entryInv_lookup ht1 hg) hgl hgs
        · rw [if_neg hgs] at hres
          simp [loopTags] at hres
      · rw [if_neg hgl] at hres
        simp [loopTags] at hres
        subst hres
        exact ht1
  · rw [if_neg hu] at hres
    simp [loopTags] at hres
    subst hres
    exact ht1

theorem shrinkStep_entryInv {P : TagEntry → Prop}
    (hinc : ∀ e, P e → P (TagEntry.mk (e.limit + 1) (e.sem + 1)))
    (hdec : ∀ e, P e → 1 ≤ e.sem → P (TagEntry.mk (e.limit - 1) (e.sem - 1)))
    {t : Tags} {tag : Tag} {u : Bool} {t2 : Tags}
    (h : EntryInv P t) (hres : loopTags (shrinkStep t tag u) = some t2) :
    EntryInv P t2 := by
  simp only [shrinkStep] at hres
  cases hd : lookupTag t tag with
  | none =>
    simp only [hd] at hres
    simp [loopTags] at hres
  | some d =>
    simp only [hd] at hres
    by_cases hds : 1 ≤ d.sem
    · rw [if_pos hds] at hres
      have ht1 : EntryInv P
          (updateEntry t tag (fun e => TagEntry.mk (e.limit - 1) (e.sem - 1))) := by
        refine entryInv_updateEntry h ?_
        intro e he
        exact hdec e (entryInv_lookup h he) (by rw [hd] at he; cases he; exact hds)
      by_cases hu : u
      · rw [if_pos hu] at hres
        simp [loopTags] at hres
        subst hres
        exact entryInv_updateEntry ht1 (fun e he => hinc e (entryInv_lookup ht1 he))
      · rw [if_neg hu] at hres
        simp [loopTags] at hres
        subst hres
        exact ht1
    · rw [if_neg hds] at hres
      simp [loopTags] at hres

theorem growLoop_entryInv {P : TagEntry → Prop}
    (hinc : ∀ e, P e → P (TagEntry.mk (e.limit + 1) (e.sem + 1)))
    (hdec : ∀ e, P e → 0 < e.limit → 1 ≤ e.sem → P (TagEntry.mk (e.limit - 1) (e.sem - 1)))
    {tag : Tag} {nl : Nat} {u : Bool} :
    ∀ (fuel : Nat) (t t2 : Tags), EntryInv P t →
      loopTags (growLoop fuel t tag nl u) = some t2 → EntryInv P t2 := by
  intro fuel
  induction fuel with
  | zero =>
    intro t t2 h hres
    rw [growLoop] at hres
    cases hd : lookupTag t tag with
    | none =>
      simp only [hd, loopTags] at hres
      cases hres
      exact h
    | some d =>
      simp only [hd] at hres
      by_cases hlim : d.limit < nl
      · rw [if_pos hlim] at hres
        simp [loopTags] at hres
      · rw [if_neg hlim] at hres
        simp only [loopTags, Option.some.injEq] at hres
        cases hres
        exact h
  | succ f ih =>
    intro t t2 h hres
    rw [growLoop] at hres
    cases hd : lookupTag t tag with
    | none =>
      simp only [hd, loopTags] at hres
      cases hres
      exact h
    | some d =>
      simp only [hd] at hres
      by_cases hlim : d.limit < nl
      · rw [if_pos hlim] at hres
        cases hs : growStep t tag u with
        | ok t3 =>
          simp only [hs] at hres
          have ht3 : EntryInv P t3 :=
            growStep_entryInv hinc hdec h (by rw [hs]; rfl)
          exact ih t3 t2 ht3 hres
        | err t3 =>
          simp only [hs, loopTags, Option.some.injEq] at hres
          cases hres
          exact growStep_entryInv hinc hdec h (by rw [hs]; rfl)
        | blocked =>
          simp only [hs, loopTags] at hres
          exact Option.noConfusion hres
      · rw [if_neg hlim] at hres
        simp only [loopTags, Option.some.injEq] at hres
        cases hres
        exact h

theorem shrinkLoop_entryInv {P : TagEntry → Prop}
    (hinc : ∀ e, P e → P (TagEntry.mk (e.limit + 1) (e.sem + 1)))
    (hdec : ∀ e, P e → 1 ≤ e.sem → P (TagEntry.mk (e.limit - 1) (e.sem - 1)))
    {tag : Tag} {nl : Nat} {u : Bool} :
    ∀ (fuel : Nat) (t t2 : Tags), EntryInv P t →
      loopTags (shrinkLoop fuel t tag nl u) = some t2 → EntryInv P t2 := by
  intro fuel
  induction fuel with
  | zero =>
    intro t t2 h hres
    rw [shrinkLoop] at hres
    cases hd : lookupTag t tag with
    | none =>
      simp only [hd, loopTags] at hres
      cases hres
      exact h
    | some d =>
      simp only [hd] at hres
      by_cases hlim : nl < d.limit
      · rw [if_pos hlim] at hres
        simp [loopTags] at hres
      · rw [if_neg hlim] at hres
        simp only [loopTags, Option.some.injEq] at hres
        cases hres
        exact h
  | succ f ih =>
    intro t t2 h hres
    rw [shrinkLoop] at hres
    cases hd : lookupTag t tag with
    | none =>
      simp only [hd, loopTags] at hres
      cases hres
      exact h
    | some d =>
      simp only [hd] at hres
      by_cases hlim : nl < d.limit
      · rw [if_pos hlim] at hres
        cases hs : shrinkStep t tag u with
        | ok t3 =>
          simp only [hs] at hres
          have ht3 : EntryInv P t3 :=
            shrinkStep_entryInv hinc hdec h (by rw [hs]; rfl)
          exact ih t3 t2 ht3 hres
        | err t3 =>
          simp only [hs, loopTags, Option.some.injEq] at hres
          cases hres
          exact shrinkStep_entryInv hinc hdec h (by rw [hs]; rfl)
        | blocked =>
          simp only [hs, loopTags] at hres
          exact Option.noConfusion hres
      · rw [if_neg hlim] at hres
        simp only [loopTags, Option.some.injEq] at hres
        cases hres
        exact h

theorem adjustModel_entryInv {P : TagEntry → Prop}
    (hinc : ∀ e, P e → P (TagEntry.mk (e.limit + 1) (e.sem + 1)))
    (hdecG : ∀ e, P e → 0 < e.limit → 1 ≤ e.sem → P (TagEntry.mk (e.limit - 1) (e.sem - 1)))
    (hdecS : ∀ e, P e → 1 ≤ e.sem → P (TagEntry.mk (e.limit - 1) (e.sem - 1)))
    (hmk : ∀ n : Nat, P (TagEntry.mk n n))
    {fuel : Nat} {tags : Tags} {tag : Tag} {n : Int} {u : Bool} {t2 : Tags}
    (h : EntryInv P tags)
    (hres : adjTags (adjustModel fuel tags tag n u) = some t2) : EntryInv P t2 := by
  have h1 : EntryInv P
      (if u && (lookupTag tags none).isNone then setTag tags none 0 else tags) := by
    by_cases hc : (u && (lookupTag tags none).isNone) = true
    · rw [if_pos hc]
      exact entryInv_setTag h (hmk 0)
    · rw [if_neg hc]
      exact h
  simp only [adjustModel] at hres
  by_cases hk : (lookupTag tags tag).isSome = true
  · rw [if_pos hk] at hres
    cases hg : growLoop fuel
        (if u && (lookupTag tags none).isNone then setTag tags none 0 else tags)
        tag n.toNat u with
    | ok t3 =>
      simp only [hg] at hres
      have ht3 : EntryInv P t3 := growLoop_entryInv hinc hdecG fuel _ t3 h1 (by rw [hg]; rfl)
      cases hs : shrinkLoop fuel t3 tag n.toNat u with
      | ok t4 =>
        simp only [hs, recountTotal] at hres
        have ht4 : EntryInv P t4 := shrinkLoop_entryInv hinc hdecS fuel t3 t4 ht3 (by rw [hs]; rfl)
        by_cases htot : totalLimit t4 > 0
        · rw [if_pos htot] at hres
          simp only [adjTags, Option.some.injEq] at hres
          cases hres
          exact ht4
        · rw [if_neg htot] at hres
          simp only [adjTags, Option.some.injEq] at hres
          cases hres
          exact ht4
      | err t4 =>
        simp only [hs, adjTags, Option.some.injEq] at hres
        cases hres
        exact shrinkLoop_entryInv hinc hdecS fuel t3 t2 ht3 (by rw [hs]; rfl)
      | blocked =>
        simp only [hs, adjTags] at hres
        exact Option.noConfusion hres
    | err t3 =>
      simp only [hg, adjTags, Option.some.injEq] at hres
      cases hres
      exact growLoop_entryInv hinc hdecG fuel _ t2 h1 (by rw [hg]; rfl)
    | blocked =>
      simp only [hg, adjTags] at hres
      exact Option.noConfusion hres
  · rw [if_neg hk] at hres
    have h2 : EntryInv P
        (setTag (if u && (lookupTag tags none).isNone then setTag tags none 0 else tags)
          tag n.toNat) :=
      entryInv_setTag h1 (hmk n.toNat)
    simp only [recountTotal] at hres
    by_cases htot : totalLimit
        (setTag (if u && (lookupTag tags none).isNone then setTag tags none 0 else tags)
          tag n.toNat) > 0
    · rw [if_pos htot] at hres
      simp only [adjTags, Option.some.injEq] at hres
      cases hres
      exact h2
    · rw [if_neg htot] at hres
      simp only [adjTags, Option.some.injEq] at hres
      cases hres
      exact h2

/-! ### The invariants, instantiated -/

theorem inv_eq_entryInv :
    Inv = EntryInv (fun e => 0 ≤ e.sem ∧ e.sem ≤ (e.limit : Int)) :=
  rfl

theorem semNonneg_eq_entryInv : SemNonneg = EntryInv (fun e => 0 ≤ e.sem) :=
  rfl

theorem processTags_entryInv {P : TagEntry → Prop} (hmk : ∀ n : Nat, P (TagEntry.mk n n)) :
    ∀ (l : List (String × Nat)) (acc : Tags) (tot : Nat), EntryInv P acc →
      EntryInv P (processTags acc tot l).1 := by
  intro l
  induction l with
  | nil =>
    intro acc tot h
    simpa [processTags] using h
  | cons kv rest ih =>
    intro acc tot h
    rw [processTags]
    exact ih _ _ (entryInv_setTag h (hmk kv.2))

theorem initPool_entryInv {P : TagEntry → Prop} (hmk : ∀ n : Nat, P (TagEntry.mk n n))
    {limit : Nat} {tagsIn : List (String × Nat)} {t : Tags}
    (h : initPool limit tagsIn = some t) : EntryInv P t := by
  have hnil : EntryInv P ([] : Tags) := by
    intro p hp
    simp at hp
  rw [initPool] at h
  by_cases he : tagsIn.isEmpty
  · rw [if_pos he] at h
    by_cases htot : totalLimit (setTag [] none limit) > 0
    · rw [if_pos htot] at h
      cases h
      exact entryInv_setTag hnil (hmk limit)
    · rw [if_neg htot] at h
      exact Option.noConfusion h
  · rw [if_neg he] at h
    have hp : EntryInv P (processTags [] 0 tagsIn).1 :=
      processTags_entryInv hmk tagsIn [] 0 hnil
    by_cases hc : limit ≠ 0 ∧ limit ≠ (processTags [] 0 tagsIn).2
    · rw [if_pos hc] at h
      by_cases hlt : limit < (processTags [] 0 tagsIn).2
      · rw [if_pos hlt] at h
        exact Option.noConfusion h
      · rw [if_neg hlt] at h
        by_cases htot : totalLimit
            (setTag (processTags [] 0 tagsIn).1 none (limit - (processTags [] 0 tagsIn).2)) > 0
        · rw [if_pos htot] at h
          cases h
          exact entryInv_setTag hp (hmk _)
        · rw [if_neg htot] at h
          exact Option.noConfusion h
    · rw [if_neg hc] at h
      by_cases htot : totalLimit (processTags [] 0 tagsIn).1 > 0
      · rw [if_pos htot] at h
        cases h
        exact hp
      · rw [if_neg htot] at h
        exact Option.noConfusion h

theorem semNonneg_opStep {fuel : Nat} {tags : Tags} {op : PoolOp} {t2 : Tags}
    (h : SemNonneg tags) (hres : opStep fuel tags op = some t2) : SemNonneg t2 := by
  have hP := semNonneg_eq_entryInv
  cases op with
  | acquireOwn t =>
    rw [opStep] at hres
    by_cases hc : (hasSem tags t && decide (1 ≤ semAvail tags t)) = true
    · rw [if_pos hc] at hres
      cases hres
      have hsa : 1 ≤ semAvail tags t := of_decide_eq_true (Bool.and_elim_right hc)
      rw [hP] at h ⊢
      refine entryInv_updateEntry h ?_
      intro e he
      have : semAvail tags t = e.sem := by
        rw [semAvail, he]
      simp only
      omega
    · rw [if_neg hc] at hres
      exact Option.noConfusion hres
  | acquireGeneral t =>
    rw [opStep] at hres
    by_cases hc : (hasSem tags none && decide (1 ≤ semAvail tags none)) = true
    · rw [if_pos hc] at hres
      cases hres
      have hsa : 1 ≤ semAvail tags none := of_decide_eq_true (Bool.and_elim_right hc)
      rw [hP] at h ⊢
      refine entryInv_updateEntry h ?_
      intro e he
      have : semAvail tags none = e.sem := by
        rw [semAvail, he]
      simp only
      omega
    · rw [if_neg hc] at hres
      exact Option.noConfusion hres
  | finishOk t =>
    rw [opStep] at hres
    by_cases hc : hasSem tags t = true
    · rw [if_pos hc] at hres
      cases hres
      rw [hP] at h ⊢
      refine entryInv_updateEntry h ?_
      intro e he
      have := entryInv_lookup h he
      simp only at this ⊢
      omega
    · rw [if_neg hc] at hres
      cases hres
      exact h
  | finishFail t =>
    rw [opStep] at hres
    cases hres
    exact h
  | opAdjust t n g =>
    rw [opStep] at hres
    have key : ∀ t3 : Tags, adjTags (adjustModel fuel tags t n g) = some t3 → SemNonneg t3 := by
      intro t3 h3
      rw [hP] at h ⊢
      refine adjustModel_entryInv ?_ ?_ ?_ ?_ h h3
      · intro e he
        simp only at he ⊢
        omega
      · intro e he _ hs
        simp only at he ⊢
        omega
      · intro e he hs
        simp only at he ⊢
        omega
      · intro n2
        simp only
        positivity
    cases ha : adjustModel fuel tags t n g with
    | ok t3 =>
      rw [ha] at hres
      cases hres
      exact key _ (by rw [ha]; rfl)
    | indexError t3 =>
      rw [ha] at hres
      cases hres
      exact key _ (by rw [ha]; rfl)
    | assertFail t3 =>
      rw [ha] at hres
      cases hres
      exact key _ (by rw [ha]; rfl)
    | hang =>
      rw [ha] at hres
      exact Option.noConfusion hres

theorem semNonneg_runOps {fuel : Nat} :
    ∀ (ops : List PoolOp) (tags t2 : Tags), SemNonneg tags →
      runOps fuel tags ops = some t2 → SemNonneg t2 := by
  intro ops
  induction ops with
  | nil =>
    intro tags t2 h hres
    rw [runOps] at hres
    cases hres
    exact h
  | cons op rest ih =>
    intro tags t2 h hres
    rw [runOps] at hres
    cases hs : opStep fuel tags op with
    | some t3 =>
      rw [hs] at hres
      exact ih t3 t2 (semNonneg_opStep h hs) hres
    | none =>
      rw [hs] at hres
      exact Option.noConfusion hres

theorem inv_opStep {fuel : Nat} {tags : Tags} {op : PoolOp} {t2 : Tags}
    (h : Inv tags) (hres : opStep fuel tags op = some t2)
    (hop : ∀ tg, op = PoolOp.finishOk tg → hasSem tags tg = false) : Inv t2 := by
  have hP := inv_eq_entryInv
  cases op with
  | acquireOwn t =>
    rw [opStep] at hres
    by_cases hc : (hasSem tags t && decide (1 ≤ semAvail tags t)) = true
    · rw [if_pos hc] at hres
      cases hres
      have hsa : 1 ≤ semAvail tags t := of_decide_eq_true (Bool.and_elim_right hc)
      rw [hP] at h ⊢
      refine entryInv_updateEntry h ?_
      intro e he
      have h1 := entryInv_lookup h he
      have h2 : semAvail tags t = e.sem := by
        rw [semAvail, he]
      simp only at h1 ⊢
      omega
    · rw [if_neg hc] at hres
      exact Option.noConfusion hres
  | acquireGeneral t =>
    rw [opStep] at hres
    by_cases hc : (hasSem tags none && decide (1 ≤ semAvail tags none)) = true
    · rw [if_pos hc] at hres
      cases hres
      have hsa : 1 ≤ semAvail tags none := of_decide_eq_true (Bool.and_elim_right hc)
      rw [hP] at h ⊢
      refine entryInv_updateEntry h ?_
      intro e he
      have h1 := entryInv_lookup h he
      have h2 : semAvail tags none = e.sem := by
        rw [semAvail, he]
      simp only at h1 ⊢
      omega
    · rw [if_neg hc] at hres
      exact Option.noConfusion hres
  | finishOk t =>
    rw [opStep] at hres
    rw [hop t rfl] at hres
    simp only [Bool.false_eq_true, if_false, Option.some.injEq] at hres
    cases hres
    exact h
  | finishFail t =>
    rw [opStep] at hres
    cases hres
    exact h
  | opAdjust t n g =>
    rw [opStep] at hres
    have key : ∀ t3 : Tags, adjTags (adjustModel fuel tags t n g) = some t3 → Inv t3 := by
      intro t3 h3
      rw [hP] at h ⊢
      refine adjustModel_entryInv ?_ ?_ ?_ ?_ h h3
      · intro e he
        simp only at he ⊢
        constructor
        · omega
        · push_cast
          omega
      · intro e he hl hs
        simp only at he ⊢
        constructor
        · omega
        · have : (1 : Int) ≤ (e.limit : Int) := by
            exact_mod_cast hl
          omega
      · intro e he hs
        simp only at he ⊢
        have hl : (1 : Int) ≤ (e.limit : Int) := le_trans hs he.2
        constructor
        · omega
        · omega
      · intro n2
        simp only
        constructor
        · positivity
        · exact le_refl _
    cases ha : adjustModel fuel tags t n g with
    | ok t3 =>
      rw [ha] at hres
      cases hres
      exact key _ (by rw [ha]; rfl)
    | indexError t3 =>
      rw [ha] at hres
      cases hres
      exact key _ (by rw [ha]; rfl)
    | assertFail t3 =>
      rw [ha] at hres
      cases hres
      exact key _ (by rw [ha]; rfl)
    | hang =>
      rw [ha] at hres
      exact Option.noConfusion hres

/-! ### Limits after a completed `adjust` -/

theorem growStep_false_eq {t : Tags} {tag : Tag} :
    growStep t tag false =
      LoopRes.ok (updateEntry t tag (fun e => TagEntry.mk (e.limit + 1) (e.sem + 1))) :=
  rfl

theorem growLoop_ok_limit {tag : Tag} {nl : Nat} :
    ∀ (fuel : Nat) (t t2 : Tags) (d : TagEntry), lookupTag t tag = some d →
      growLoop fuel t tag nl false = LoopRes.ok t2 →
      ∃ d2, lookupTag t2 tag = some d2 ∧ d2.limit = max d.limit nl := by
  intro fuel
  induction fuel with
  | zero =>
    intro t t2 d hd hres
    rw [growLoop] at hres
    simp only [hd] at hres
    by_cases hlim : d.limit < nl
    · rw [if_pos hlim] at hres
      exact LoopRes.noConfusion hres
    · rw [if_neg hlim] at hres
      cases hres
      exact ⟨d, hd, by omega⟩
  | succ f ih =>
    intro t t2 d hd hres
    rw [growLoop] at hres
    simp only [hd] at hres
    by_cases hlim : d.limit < nl
    · rw [if_pos hlim] at hres
      rw [growStep_false_eq] at hres
      have hd3 : lookupTag
          (updateEntry t tag (fun e => TagEntry.mk (e.limit + 1) (e.sem + 1))) tag =
          some (TagEntry.mk (d.limit + 1) (d.sem + 1)) := by
        rw [lookupTag_updateEntry_self, hd]
        rfl
      obtain ⟨d2, h1, h2⟩ := ih _ t2 _ hd3 hres
      exact ⟨d2, h1, by simp only at h2; omega⟩
    · rw [if_neg hlim] at hres
      cases hres
      exact ⟨d, hd, by omega⟩

theorem shrinkLoop_ok_limit {tag : Tag} {nl : Nat} :
    ∀ (fuel : Nat) (t t2 : Tags) (d : TagEntry), lookupTag t tag = some d →
      shrinkLoop fuel t tag nl false = LoopRes.ok t2 →
      ∃ d2, lookupTag t2 tag = some d2 ∧ d2.limit = min d.limit nl := by
  intro fuel
  induction fuel with
  | zero =>
    intro t t2 d hd hres
    rw [shrinkLoop] at hres
    simp only [hd] at hres
    by_cases hlim : nl < d.limit
    · rw [if_pos hlim] at hres
      exact LoopRes.noConfusion hres
    · rw [if_neg hlim] at hres
      cases hres
      exact ⟨d, hd, by omega⟩
  | succ f ih =>
    intro t t2 d hd hres
    rw [shrinkLoop] at hres
    simp only [hd] at hres
    by_cases hlim : nl < d.limit
    · rw [if_pos hlim] at hres
      rw [shrinkStep] at hres
      simp only [hd] at hres
      by_cases hsem : 1 ≤ d.sem
      · rw [if_pos hsem] at hres
        simp only [Bool.false_eq_true, if_false] at hres
        have hd3 : lookupTag
            (updateEntry t tag (fun e => TagEntry.mk (e.limit - 1) (e.sem - 1))) tag =
            some (TagEntry.mk (d.limit - 1) (d.sem - 1)) := by
          rw [lookupTag_updateEntry_self, hd]
          rfl
        obtain ⟨d2, h1, h2⟩ := ih _ t2 _ hd3 hres
        exact ⟨d2, h1, by simp only at h2; omega⟩
      · rw [if_neg hsem] at hres
        exact LoopRes.noConfusion hres
    · rw [if_neg hlim] at hres
      cases hres
      exact ⟨d, hd, by omega⟩

theorem adjustModel_ok_getTag {fuel : Nat} {tags : Tags} {tag : Tag} {n : Int} {t2 : Tags}
    (h : adjustModel fuel tags tag n false = AdjRes.ok t2) :
    getTag t2 tag = some n.toNat := by
  rw [adjustModel] at h
  simp only [Bool.false_and, Bool.false_eq_true, if_false] at h
  by_cases hk : (lookupTag tags tag).isSome = true
  · rw [if_pos hk] at h
    obtain ⟨d, hd⟩ := Option.isSome_iff_exists.mp hk
    cases hg : growLoop fuel tags tag n.toNat false with
    | ok t3 =>
      simp only [hg] at h
      obtain ⟨d3, hd3, hl3⟩ := growLoop_ok_limit fuel tags t3 d hd hg
      cases hs : shrinkLoop fuel t3 tag n.toNat false with
      | ok t4 =>
        simp only [hs] at h
        obtain ⟨d4, hd4, hl4⟩ := shrinkLoop_ok_limit fuel t3 t4 d3 hd3 hs
        rw [recountTotal] at h
        by_cases htot : totalLimit t4 > 0
        · rw [if_pos htot] at h
          cases h
          simp only [getTag, hd4, Option.map, Option.some.injEq]
          omega
        · rw [if_neg htot] at h
          exact AdjRes.noConfusion h
      | err t4 =>
        simp only [hs] at h
        exact AdjRes.noConfusion h
      | blocked =>
        simp only [hs] at h
        exact AdjRes.noConfusion h
    | err t3 =>
      simp only [hg] at h
      exact AdjRes.noConfusion h
    | blocked =>
      simp only [hg] at h
      exact AdjRes.noConfusion h
  · rw [if_neg hk] at h
    rw [recountTotal] at h
    by_cases htot : totalLimit (setTag tags tag n.toNat) > 0
    · rw [if_pos htot] at h
      cases h
      rw [getTag, lookupTag_setTag_self]
      rfl
    · rw [if_neg htot] at h
      exact AdjRes.noConfusion h

theorem adjustModel_unknown_direct {fuel : Nat} {tags : Tags} {tag : Tag} {n : Int} {g : Bool}
    (h : lookupTag tags tag = none) :
    adjustModel fuel tags tag n g =
      recountTotal
        (setTag (if g && (lookupTag tags none).isNone then setTag tags none 0 else tags)
          tag n.toNat) := by
  rw [adjustModel]
  simp [h]

/-! ### State left behind by a transferring grow that exhausts the general pool -/

theorem growStep_true_eq (t : Tags) (tag : Tag) :
    growStep t tag true =
      (match lookupTag (updateEntry t tag (fun e => TagEntry.mk (e.limit + 1) (e.sem + 1)))
          none with
       | none => LoopRes.blocked
       | some g =>
         if 0 < g.limit then
           if 1 ≤ g.sem then
             LoopRes.ok
               (updateEntry
                 (updateEntry t tag (fun e => TagEntry.mk (e.limit + 1) (e.sem + 1)))
                 none (fun e => TagEntry.mk (e.limit - 1) (e.sem - 1)))
           else LoopRes.blocked
         else LoopRes.err
           (updateEntry t tag (fun e => TagEntry.mk (e.limit + 1) (e.sem + 1)))) :=
  rfl

theorem shrinkStep_true_eq (t : Tags) (tag : Tag) :
    shrinkStep t tag true =
      (match lookupTag t tag with
       | none => LoopRes.blocked
       | some d =>
         if 1 ≤ d.sem then
           LoopRes.ok
             (updateEntry
               (updateEntry t tag (fun e => TagEntry.mk (e.limit - 1) (e.sem - 1)))
               none (fun e => TagEntry.mk (e.limit + 1) (e.sem + 1)))
         else LoopRes.blocked) :=
  rfl

theorem growLoop_exhausts_general {s : String} {nl : Nat} :
    ∀ (G : Nat) (fuel : Nat) (t : Tags) (L : Nat) (sL : Int),
      lookupTag t (some s) = some (TagEntry.mk L sL) →
      lookupTag t none = some (TagEntry.mk G G) →
      L + G < nl → G < fuel →
      ∃ t2, growLoop fuel t (some s) nl true = LoopRes.err t2 ∧
        lookupTag t2 (some s) = some (TagEntry.mk (L + G + 1) (sL + G + 1)) ∧
        lookupTag t2 none = some (TagEntry.mk 0 0) := by
  intro G
  induction G with
  | zero =>
    intro fuel t L sL hs0 hg0 hlt hfuel
    obtain ⟨f, rfl⟩ : ∃ f, fuel = f + 1 := ⟨fuel - 1, by omega⟩
    have hs1 : lookupTag
        (updateEntry t (some s) (fun e => TagEntry.mk (e.limit + 1) (e.sem + 1)))
        (some s) = some (TagEntry.mk (L + 1) (sL + 1)) := by
      rw [lookupTag_updateEntry_self, hs0]
      rfl
    have hg1 : lookupTag
        (updateEntry t (some s) (fun e => TagEntry.mk (e.limit + 1) (e.sem + 1)))
        none = some (TagEntry.mk 0 0) := by
      rw [lookupTag_updateEntry_ne (by simp), hg0]
      rfl
    rw [growLoop]
    simp only [hs0]
    rw [if_pos (by omega : L < nl)]
    rw [growStep_true_eq]
    simp only [hg1]
    rw [if_neg (by omega : ¬ (0:Nat) < 0)]
    refine ⟨_, rfl, ?_, ?_⟩
    · rw [hs1]
      norm_num
    · exact hg1
  | succ G ih =>
    intro fuel t L sL hs0 hg0 hlt hfuel
    obtain ⟨f, rfl⟩ : ∃ f, fuel = f + 1 := ⟨fuel - 1, by omega⟩
    have hs1 : lookupTag
        (updateEntry t (some s) (fun e => TagEntry.mk (e.limit + 1) (e.sem + 1)))
        (some s) = some (TagEntry.mk (L + 1) (sL + 1)) := by
      rw [lookupTag_updateEntry_self, hs0]
      rfl
    have hg1 : lookupTag
        (updateEntry t (some s) (fun e => TagEntry.mk (e.limit + 1) (e.sem + 1)))
        none = some (TagEntry.mk (G + 1) ((G : Int) + 1)) := by
      rw [lookupTag_updateEntry_ne (by simp), hg0]
      norm_num
    have hs2 : lookupTag
        (updateEntry
          (updateEntry t (some s) (fun e => TagEntry.mk (e.limit + 1) (e.sem + 1)))
          none (fun e => TagEntry.mk (e.limit - 1) (e.sem - 1)))
        (some s) = some (TagEntry.mk (L + 1) (sL + 1)) := by
      rw [lookupTag_updateEntry_ne (by simp), hs1]
    have hg2 : lookupTag
        (updateEntry
          (updateEntry t (some s) (fun e => TagEntry.mk (e.limit + 1) (e.sem + 1)))
          none (fun e => TagEntry.mk (e.limit - 1) (e.sem - 1)))
        none = some (TagEntry.mk G (G : Int)) := by
      rw [lookupTag_updateEntry_self, hg1]
      norm_num
    obtain ⟨t2, hrun, ha, hb⟩ := ih f _ (L + 1) (sL + 1) hs2 hg2 (by omega) (by omega)
    rw [growLoop]
    simp only [hs0]
    rw [if_pos (by omega : L < nl)]
    rw [growStep_true_eq]
    simp only [hg1]
    rw [if_pos (by omega : 0 < G + 1)]
    rw [if_pos (by omega : (1:Int) ≤ (G : Int) + 1)]
    refine ⟨t2, hrun, ?_, hb⟩
    rw [ha]
    have e1 : L + 1 + G + 1 = L + (G + 1) + 1 := by omega
    have e2 : sL + 1 + (G : Int) + 1 = sL + ((G : Nat) + 1 : Nat) + 1 := by
      push_cast
      ring
    rw [e1, e2]

/-! ### Non-termination of a transferring adjust of the general tag -/

theorem growStep_gen_self {t : Tags} {L : Nat} {sL : Int}
    (h : lookupTag t none = some (TagEntry.mk L sL)) (hs : 0 ≤ sL) :
    growStep t none true = LoopRes.ok t := by
  have hg1 : lookupTag
      (updateEntry t none (fun e => TagEntry.mk (e.limit + 1) (e.sem + 1))) none =
      some (TagEntry.mk (L + 1) (sL + 1)) := by
    rw [lookupTag_updateEntry_self, h]
    rfl
  rw [growStep_true_eq]
  simp only [hg1]
  rw [if_pos (by omega : 0 < L + 1)]
  rw [if_pos (by omega : (1:Int) ≤ sL + 1)]
  rw [updateEntry_updateEntry]
  rw [updateEntry_lookup_id h]
  simp only [TagEntry.mk.injEq]
  constructor
  · omega
  · omega

theorem growStep_gen_blocked {t : Tags} {L : Nat} {sL : Int}
    (h : lookupTag t none = some (TagEntry.mk L sL)) (hs : sL < 0) :
    growStep t none true = LoopRes.blocked := by
  have hg1 : lookupTag
      (updateEntry t none (fun e => TagEntry.mk (e.limit + 1) (e.sem + 1))) none =
      some (TagEntry.mk (L + 1) (sL + 1)) := by
    rw [lookupTag_updateEntry_self, h]
    rfl
  rw [growStep_true_eq]
  simp only [hg1]
  rw [if_pos (by omega : 0 < L + 1)]
  rw [if_neg (by omega : ¬ (1:Int) ≤ sL + 1)]

theorem growLoop_gen_blocked {t : Tags} {L : Nat} {sL : Int} {nl : Nat}
    (h : lookupTag t none = some (TagEntry.mk L sL)) (hlt : L < nl) :
    ∀ fuel, growLoop fuel t none nl true = LoopRes.blocked := by
  intro fuel
  induction fuel with
  | zero =>
    rw [growLoop]
    simp only [h]
    rw [if_pos hlt]
  | succ f ih =>
    rw [growLoop]
    simp only [h]
    rw [if_pos hlt]
    by_cases hsl : 0 ≤ sL
    · rw [growStep_gen_self h hsl]
      exact ih
    · rw [growStep_gen_blocked h (by omega)]

theorem shrinkStep_gen_self {t : Tags} {L : Nat} {sL : Int}
    (h : lookupTag t none = some (TagEntry.mk L sL)) (hs : 1 ≤ sL) (hL : 1 ≤ L) :
    shrinkStep t none true = LoopRes.ok t := by
  rw [shrinkStep_true_eq]
  simp only [h]
  rw [if_pos hs]
  rw [updateEntry_updateEntry]
  rw [updateEntry_lookup_id h]
  simp only [TagEntry.mk.injEq]
  constructor
  · omega
  · omega

theorem shrinkStep_gen_blocked {t : Tags} {L : Nat} {sL : Int}
    (h : lookupTag t none = some (TagEntry.mk L sL)) (hs : sL < 1) :
    shrinkStep t none true = LoopRes.blocked := by
  rw [shrinkStep_true_eq]
  simp only [h]
  rw [if_neg (by omega : ¬ (1:Int) ≤ sL)]

theorem shrinkLoop_gen_blocked {t : Tags} {L : Nat} {sL : Int} {nl : Nat}
    (h : lookupTag t none = some (TagEntry.mk L sL)) (hgt : nl < L) :
    ∀ fuel, shrinkLoop fuel t none nl true = LoopRes.blocked := by
  intro fuel
  induction fuel with
  | zero =>
    rw [shrinkLoop]
    simp only [h]
    rw [if_pos hgt]
  | succ f ih =>
    rw [shrinkLoop]
    simp only [h]
    rw [if_pos hgt]
    by_cases hsl : 1 ≤ sL
    · rw [shrinkStep_gen_self h hsl (by omega)]
      exact ih
    · rw [shrinkStep_gen_blocked h (by omega)]

theorem growLoop_exit {fuel : Nat} {t : Tags} {tag : Tag} {nl : Nat} {u : Bool}
    {d : TagEntry} (hd : lookupTag t tag = some d) (hge : ¬ d.limit < nl) :
    growLoop fuel t tag nl u = LoopRes.ok t := by
  cases fuel with
  | zero =>
    rw [growLoop]
    simp only [hd]
    rw [if_neg hge]
  | succ f =>
    rw [growLoop]
    simp only [hd]
    rw [if_neg hge]

theorem shrinkLoop_exit {fuel : Nat} {t : Tags} {tag : Tag} {nl : Nat} {u : Bool}
    {d : TagEntry} (hd : lookupTag t tag = some d) (hle : ¬ nl < d.limit) :
    shrinkLoop fuel t tag nl u = LoopRes.ok t := by
  cases fuel with
  | zero =>
    rw [shrinkLoop]
    simp only [hd]
    rw [if_neg hle]
  | succ f =>
    rw [shrinkLoop]
    simp only [hd]
    rw [if_neg hle]

theorem adjustModel_gen_useGen_hang {fuel : Nat} {tags : Tags} {L : Nat} {sL : Int} {n : Int}
    (h : lookupTag tags none = some (TagEntry.mk L sL)) (hne : n.toNat ≠ L) :
    adjustModel fuel tags none n true = AdjRes.hang := by
  have hknown : (lookupTag tags none).isSome = true := by
    rw [h]
    rfl
  have hnone : (lookupTag tags none).isNone = false := by
    rw [h]
    rfl
  rw [adjustModel]
  simp only [hnone, Bool.and_false, Bool.false_eq_true, if_false]
  rw [if_pos hknown]
  by_cases hlt : L < n.toNat
  · rw [growLoop_gen_blocked h hlt fuel]
  · have hgt : n.toNat < L := by omega
    have hgrow : growLoop fuel tags none n.toNat true = LoopRes.ok tags :=
      growLoop_exit h hlt
    simp only [hgrow]
    rw [shrinkLoop_gen_blocked h hgt fuel]

theorem adjustModel_gen_eq_noop {fuel : Nat} {tags : Tags} {L : Nat} {sL : Int} {n : Int}
    (h : lookupTag tags none = some (TagEntry.mk L sL)) (heq : n.toNat = L) :
    adjustModel fuel tags none n true = adjustModel fuel tags none n false := by
  have hknown : (lookupTag tags none).isSome = true := by
    rw [h]
    rfl
  have hnone : (lookupTag tags none).isNone = false := by
    rw [h]
    rfl
  have hgrow : ∀ u : Bool, growLoop fuel tags none n.toNat u = LoopRes.ok tags :=
    fun _ => growLoop_exit h (by show ¬ L < n.toNat; omega)
  have hshrink : ∀ u : Bool, shrinkLoop fuel tags none n.toNat u = LoopRes.ok tags :=
    fun _ => shrinkLoop_exit h (by show ¬ n.toNat < L; omega)
  rw [adjustModel, adjustModel]
  simp only [hnone, Bool.and_false, Bool.false_and, Bool.false_eq_true, if_false]
  rw [if_pos hknown, if_pos hknown]
  simp only [hgrow, hshrink]

/-! ### The submission gate never raises when a pool exists -/

theorem putLoop_ne_keyError {hT hG : Bool} (h : (hT || hG) = true) :
    ∀ sched, putLoop hT hG sched ≠ PutRes.keyError := by
  intro sched
  induction sched with
  | nil =>
    rw [putLoop]
    intro hc
    exact PutRes.noConfusion hc
  | cons p rest ih =>
    rw [putLoop, h]
    cases hstop : p.stop with
    | true => simp
    | false =>
      cases h1 : (hT && p.tagAcq) with
      | true => simp [h1]
      | false =>
        cases h2 : (hG && p.genAcq) with
        | true => simp [h1, h2]
        | false => simpa [h1, h2] using ih

theorem putLoop_stop_noop {hT hG : Bool} (h : (hT || hG) = true) :
    ∀ (pre : List PutProbe) (q : PutProbe) (post : List PutProbe),
      (∀ r ∈ pre, r.stop = false ∧ (hT && r.tagAcq) = false ∧ (hG && r.genAcq) = false) →
      q.stop = true →
      putLoop hT hG (pre ++ q :: post) = PutRes.noop := by
  intro pre
  induction pre with
  | nil =>
    intro q post hpre hq
    rw [List.nil_append, putLoop, hq]
    simp
  | cons r pre ih =>
    intro q post hpre hq
    obtain ⟨h1, h2, h3⟩ := hpre r (List.mem_cons_self _ _)
    rw [List.cons_append, putLoop, h, h1, h2, h3]
    simp only [Bool.not_true, Bool.false_or, Bool.false_eq_true, if_false]
    exact ih q post (fun x hx => hpre x (List.mem_cons_of_mem _ hx)) hq

/-! ### Constructor key normalization -/

theorem processTags_no_empty_key :
    ∀ (l : List (String × Nat)) (acc : Tags) (tot : Nat),
      lookupTag acc (some "") = none →
      lookupTag (processTags acc tot l).1 (some "") = none := by
  intro l
  induction l with
  | nil =>
    intro acc tot h
    simpa [processTags] using h
  | cons kv rest ih =>
    intro acc tot h
    rw [processTags]
    refine ih _ _ ?_
    rw [lookupTag_setTag_ne, h]
    rw [normKey]
    by_cases hk : kv.1 = ""
    · rw [if_pos hk]
      simp
    · rw [if_neg hk]
      simp [hk]

theorem processTags_none_key_preserved :
    ∀ (l : List (String × Nat)) (acc : Tags) (tot : Nat),
      (∀ kv ∈ l, kv.1 ≠ "") →
      lookupTag (processTags acc tot l).1 none = lookupTag acc none := by
  intro l
  induction l with
  | nil =>
    intro acc tot _
    rw [processTags]
  | cons kv rest ih =>
    intro acc tot hl
    rw [processTags]
    rw [ih _ _ (fun x hx => hl x (List.mem_cons_of_mem _ hx))]
    rw [lookupTag_setTag_ne]
    rw [normKey, if_neg (hl kv (List.mem_cons_self _ _))]
    simp

example : initPool 0 [("test", 1), ("ignore", 5)] =
    some [(some "test", TagEntry.mk 1 1), (some "ignore", TagEntry.mk 5 5)] := by decide

example : initPool 2 [("a", 1)] =
    some [(some "a", TagEntry.mk 1 1), (none, TagEntry.mk 1 1)] := by decide

example : initPool 3 [] = some [(none, TagEntry.mk 3 3)] := by decide

example : initPool 0 [("", 4)] = some [(none, TagEntry.mk 4 4)] := by decide

example :
    adjustModel 20 [(some "test", TagEntry.mk 1 1), (none, TagEntry.mk 0 0)]
      (some "test") 2 true =
    AdjRes.indexError [(some "test", TagEntry.mk 2 2), (none, TagEntry.mk 0 0)] := by decide

example :
    adjustModel 20 [(none, TagEntry.mk 1 1)] none 2 true = AdjRes.hang := by decide

example :
    adjustModel 20 [(none, TagEntry.mk 1 1)] none 2 false =
    AdjRes.ok [(none, TagEntry.mk 2 2)] := by decide

/-! ## The claims -/

/-- C5: `put(tag, ...)` raises its configuration error (the `KeyError`)
exactly when the pool is not stopping at entry and neither the requested
tag nor the general tag has a positive-capacity pool; and when the stop
event is observed before any token has been acquired, `put` returns as a
silent no-op, dispatching nothing and raising nothing. -/
theorem put_raises_iff_no_pool (tags : Tags) (tag : Tag) :
    (∀ (p : PutProbe) (rest : List PutProbe),
      putModel tags tag (p :: rest) = PutRes.keyError ↔
        p.stop = false ∧ hasSem tags tag = false ∧ hasSem tags none = false) ∧
    (∀ (pre : List PutProbe) (q : PutProbe) (post : List PutProbe),
      (hasSem tags tag || hasSem tags none) = true →
      (∀ r ∈ pre, r.stop = false ∧ (hasSem tags tag && r.tagAcq) = false ∧
        (hasSem tags none && r.genAcq) = false) →
      q.stop = true →
      putModel tags tag (pre ++ q :: post) = PutRes.noop) := by
  constructor
  · intro p rest
    constructor
    · intro hres
      by_cases hor : (hasSem tags tag || hasSem tags none) = true
      · exact absurd hres (putLoop_ne_keyError hor (p :: rest))
      · rw [Bool.or_eq_true] at hor
        push_neg at hor
        obtain ⟨ha0, hb0⟩ := hor
        have ha : hasSem tags tag = false := Bool.eq_false_iff.mpr ha0
        have hb : hasSem tags none = false := Bool.eq_false_iff.mpr hb0
        cases hq : p.stop with
        | false => exact ⟨rfl, ha, hb⟩
        | true =>
          rw [putModel, putLoop, ha, hb, hq] at hres
          simp at hres
    · rintro ⟨h1, h2, h3⟩
      rw [putModel, putLoop, h1, h2, h3]
      simp
  · intro pre q post hor hpre hq
    exact putLoop_stop_noop hor pre q post hpre hq

/-- Witness for C5 at concrete inputs: an unknown tag on a pool with no
general entry raises, and a stop observed on the second round returns a
no-op. -/
theorem put_raises_iff_no_pool_witness :
    putModel [] (some "x") [PutProbe.mk false false false] = PutRes.keyError ∧
    putModel [(some "a", TagEntry.mk 1 1)] (some "a")
      (PutProbe.mk false false false :: PutProbe.mk true false false :: []) =
      PutRes.noop := by
  constructor
  · exact ((put_raises_iff_no_pool [] (some "x")).1 (PutProbe.mk false false false)
      []).mpr (by decide)
  · exact (put_raises_iff_no_pool [(some "a", TagEntry.mk 1 1)] (some "a")).2
      [PutProbe.mk false false false] (PutProbe.mk true false false) [] (by decide)
      (by decide) rfl

/-- C6: the iterator ends, yielding nothing further, as soon as the stop
flag is observed at the top of a cycle (even when a result is still queued
and readable), or when the stop flag is observed right after an empty
read; and two consecutive empty-read cycles that both observe the pending
set empty and no active ingest stream also end it. -/
theorem iter_termination (brk : Bool) (c c1 c2 : IterCycle)
    (rest rest2 : List IterCycle) :
    (c.stop = true → iterRun brk (c :: rest) = (IterTerm.finished, [])) ∧
    (c.stop = false → c.cb = false → c.read = none → c.stopAfterEmpty = true →
      iterRun brk (c :: rest) = (IterTerm.finished, [])) ∧
    (QuietCycle c1 → QuietCycle c2 →
      iterRun brk (c1 :: c2 :: rest2) = (IterTerm.finished, [])) := by
  refine ⟨?_, ?_, ?_⟩
  · intro h
    rw [iterRun, h]
    simp
  · intro h1 h2 h3 h4
    rw [iterRun, h1, h2, h3, h4]
    simp
  · intro hq1 hq2
    obtain ⟨a1, b1, r1, d1, e1, f1⟩ := hq1
    obtain ⟨a2, b2, r2, d2, e2, f2⟩ := hq2
    rw [iterRun, a1, b1, r1, d1, e1, f1]
    simp only [Bool.false_eq_true, if_false, Bool.and_self, if_true]
    cases brk with
    | true => simp
    | false =>
      simp only [Bool.false_eq_true, if_false]
      rw [iterRun, a2, b2, r2, d2, e2, f2]
      simp

/-- Witness for C6 at concrete inputs. -/
theorem iter_termination_witness :
    iterRun false [IterCycle.mk true false (some 9) false false false] =
      (IterTerm.finished, []) ∧
    iterRun false
      [IterCycle.mk false false none false true true,
       IterCycle.mk false false none false true true] =
      (IterTerm.finished, []) :=
  ⟨(iter_termination false (IterCycle.mk true false (some 9) false false false)
      (IterCycle.mk false false none false true true)
      (IterCycle.mk false false none false true true) [] []).1 rfl,
   (iter_termination false (IterCycle.mk true false (some 9) false false false)
      (IterCycle.mk false false none false true true)
      (IterCycle.mk false false none false true true) [] []).2.2 (by decide) (by decide)⟩

/-- C7 counterexample: the conflict between iteration and a pool-wide
callback is not raised eagerly at the configuring call.  The `callback`
setter returns normally, and a run in which the callback is set after one
cycle yields a value (5) before the iterator raises on its next cycle, so
the error neither surfaces at the call creating the conflict nor before a
result value has been yielded. -/
theorem iter_callback_not_eager_counterexample :
    setCallback true false = true ∧
    iterRun false
      [IterCycle.mk false false (some 5) false false false,
       IterCycle.mk false true none false false false] =
      (IterTerm.cbError, [5]) := by
  constructor
  · rfl
  · decide

/-- C7 (amended): the callback conflict is detected at the top of each
iterator cycle, not at the configuring call: the `callback` setter itself
never raises, and the iterator raises the configuration error at the
first cycle that observes the pool-wide callback set, yielding nothing
from that cycle on (values yielded by earlier cycles are not retracted). -/
theorem iter_callback_checked_each_cycle (brk : Bool) (c : IterCycle)
    (rest : List IterCycle) (oldCb newCb : Bool)
    (hstop : c.stop = false) (hcb : c.cb = true) :
    iterRun brk (c :: rest) = (IterTerm.cbError, []) ∧
    setCallback newCb oldCb = newCb := by
  constructor
  · rw [iterRun, hstop, hcb]
    simp
  · rfl

/-- Witness for the amended C7 at a concrete input. -/
theorem iter_callback_checked_each_cycle_witness :
    iterRun false [IterCycle.mk false true (some 4) false true true] =
      (IterTerm.cbError, []) ∧
    setCallback true false = true :=
  iter_callback_checked_each_cycle false
    (IterCycle.mk false true (some 4) false true true) [] false true rfl rfl

/-- C1 counterexample: a task recorded under tag `a` (which has a pool:
limit 1, counter 0) resolves with a failure; the monitor routes the error
to the pool-wide handler without releasing any token — the registry is
returned unchanged and no release event precedes the handler, refuting
the claim that a token is released on failure as well. -/
theorem monitor_failure_skips_release_counterexample :
    hasSem [(some "a", TagEntry.mk 1 0)] (some "a") = true ∧
    monitorStep [(some "a", TagEntry.mk 1 0)] false false true true
        (PendingTask.mk (some "a") false false) TaskOutcome.failure =
      ([(some "a", TagEntry.mk 1 0)], [MEvent.errorPool]) := by
  decide

/-- C1 (amended): when the recorded tag has a token pool, a handle that
resolves with a value makes the monitor release exactly one token back to
that pool, as the first action, before any result handler runs; but a
handle that resolves with a failure releases no token at all — the error
is routed directly to the error chain with the registry unchanged. -/
theorem monitor_release_paths (tags : Tags) (stopping poolCb iteration hasErrH : Bool)
    (f : PendingTask) (v : Nat) (hsem : hasSem tags f.tag = true) :
    ((monitorStep tags stopping poolCb iteration hasErrH f (TaskOutcome.success v)).1 =
      releaseSem tags f.tag) ∧
    (∃ evs, (monitorStep tags stopping poolCb iteration hasErrH f
        (TaskOutcome.success v)).2 = MEvent.releaseTok f.tag :: evs ∧
      ∀ tg, MEvent.releaseTok tg ∉ evs) ∧
    monitorStep tags stopping poolCb iteration hasErrH f TaskOutcome.failure =
      (tags, [errorRoute hasErrH f]) := by
  refine ⟨?_, ?_, rfl⟩
  · simp only [monitorStep, finishModel, hsem, if_true]
    split_ifs <;> rfl
  · simp only [monitorStep, finishModel, hsem, if_true]
    split_ifs
    · exact ⟨[], rfl, by simp⟩
    · exact ⟨[MEvent.deliverPerTask v], rfl, by simp⟩
    · exact ⟨[MEvent.deliverPoolCb v], rfl, by simp⟩
    · exact ⟨[MEvent.enqueueResult v], rfl, by simp⟩
    · exact ⟨[], rfl, by simp⟩

/-- Witness for the amended C1 at a concrete input. -/
theorem monitor_release_paths_witness :
    (monitorStep [(some "a", TagEntry.mk 1 0)] false false true true
        (PendingTask.mk (some "a") false false) (TaskOutcome.success 7)).1 =
      releaseSem [(some "a", TagEntry.mk 1 0)] (some "a") ∧
    monitorStep [(some "a", TagEntry.mk 1 0)] false false true true
        (PendingTask.mk (some "a") false false) TaskOutcome.failure =
      ([(some "a", TagEntry.mk 1 0)],
        [errorRoute true (PendingTask.mk (some "a") false false)]) :=
  ⟨(monitor_release_paths [(some "a", TagEntry.mk 1 0)] false false true true
      (PendingTask.mk (some "a") false false) 7 (by decide)).1,
   (monitor_release_paths [(some "a", TagEntry.mk 1 0)] false false true true
      (PendingTask.mk (some "a") false false) 7 (by decide)).2.2⟩

/-- C9: for a task recorded under a tag with no token pool of its own
(absent, or present with zero limit), the success path of the monitor
raises inside `_finish` at `_sem(tag).release()` before any delivery: the
exception is routed through the error chain (per-task handler, else
pool-wide handler, else the monitor crash), the registry is unchanged, and
the successful value reaches no result sink. -/
theorem monitor_success_absent_pool (tags : Tags)
    (stopping poolCb iteration hasErrH : Bool) (f : PendingTask) (v : Nat)
    (hsem : hasSem tags f.tag = false) :
    monitorStep tags stopping poolCb iteration hasErrH f (TaskOutcome.success v) =
      (tags, [errorRoute hasErrH f]) ∧
    (errorRoute hasErrH f = MEvent.errorPerTask ∨
      errorRoute hasErrH f = MEvent.errorPool ∨
      errorRoute hasErrH f = MEvent.monitorCrash) := by
  constructor
  · simp only [monitorStep, finishModel, hsem, Bool.false_eq_true, if_false]
  · rw [errorRoute]
    split_ifs
    · exact Or.inl rfl
    · exact Or.inr (Or.inl rfl)
    · exact Or.inr (Or.inr rfl)

/-- Witness for C9 at a concrete input (unknown tag `a`, success value 3). -/
theorem monitor_success_absent_pool_witness :
    monitorStep [(some "b", TagEntry.mk 1 1)] false false true true
        (PendingTask.mk (some "a") false false) (TaskOutcome.success 3) =
      ([(some "b", TagEntry.mk 1 1)],
        [errorRoute true (PendingTask.mk (some "a") false false)]) :=
  (monitor_success_absent_pool [(some "b", TagEntry.mk 1 1)] false false true true
    (PendingTask.mk (some "a") false false) 3 (by decide)).1

/-- C2 counterexample: from the constructed pool `{a: 1}` with general
capacity 1, admit two tasks under tag `a` (one token from the pool of `a`,
one from the general pool); both successes release into the pool of `a`,
whose available count reaches 2 with capacity 1 — the claimed invariant
`available ≤ capacity` fails after the monitor releases. -/
theorem capacity_invariant_counterexample :
    initPool 2 [("a", 1)] =
      some [(some "a", TagEntry.mk 1 1), (none, TagEntry.mk 1 1)] ∧
    runOps 5 [(some "a", TagEntry.mk 1 1), (none, TagEntry.mk 1 1)]
      [PoolOp.acquireOwn (some "a"), PoolOp.acquireGeneral (some "a"),
       PoolOp.finishOk (some "a"), PoolOp.finishOk (some "a")] =
      some [(some "a", TagEntry.mk 1 2), (none, TagEntry.mk 1 0)] ∧
    ¬ Inv [(some "a", TagEntry.mk 1 2), (none, TagEntry.mk 1 0)] := by
  decide

/-- C2 (amended): `0 ≤ available` holds at all times (construction
establishes it and every operation preserves it), and
`available ≤ capacity` is established by construction and preserved by
token acquisition, task failure, and `adjust`; the monitor's release is
the exception — it preserves the invariant only for tags whose pool the
released task could actually have drawn from, and can push a tag above
capacity when the consumed token came from the general pool. -/
theorem capacity_invariant_preservation :
    (∀ (limit : Nat) (tagsIn : List (String × Nat)) (t : Tags),
        initPool limit tagsIn = some t → Inv t) ∧
    (∀ (fuel : Nat) (tags : Tags) (op : PoolOp) (t2 : Tags), Inv tags →
        opStep fuel tags op = some t2 →
        (∀ tg, op = PoolOp.finishOk tg → hasSem tags tg = false) → Inv t2) ∧
    (∀ (fuel : Nat) (ops : List PoolOp) (tags t2 : Tags), SemNonneg tags →
        runOps fuel tags ops = some t2 → SemNonneg t2) := by
  refine ⟨?_, ?_, ?_⟩
  · intro limit tagsIn t h
    rw [inv_eq_entryInv]
    refine initPool_entryInv ?_ h
    intro n
    exact ⟨Int.natCast_nonneg n, le_refl _⟩
  · intro fuel tags op t2 h1 h2 h3
    exact inv_opStep h1 h2 h3
  · intro fuel ops tags t2 h1 h2
    exact semNonneg_runOps ops tags t2 h1 h2

/-- Witness for the amended C2 at concrete inputs. -/
theorem capacity_invariant_preservation_witness :
    Inv [(some "a", TagEntry.mk 1 1), (none, TagEntry.mk 1 1)] ∧
    Inv [(some "a", TagEntry.mk 1 0), (none, TagEntry.mk 1 1)] ∧
    SemNonneg [(some "a", TagEntry.mk 1 0)] :=
  ⟨capacity_invariant_preservation.1 2 [("a", 1)]
      [(some "a", TagEntry.mk 1 1), (none, TagEntry.mk 1 1)] (by decide),
   capacity_invariant_preservation.2.1 5
      [(some "a", TagEntry.mk 1 1), (none, TagEntry.mk 1 1)]
      (PoolOp.acquireOwn (some "a"))
      [(some "a", TagEntry.mk 1 0), (none, TagEntry.mk 1 1)] (by decide) (by decide)
      (fun tg h => PoolOp.noConfusion h),
   capacity_invariant_preservation.2.2 5 [PoolOp.acquireOwn (some "a")]
      [(some "a", TagEntry.mk 1 1)] [(some "a", TagEntry.mk 1 0)] (by decide)
      (by decide)⟩

/-- C3 counterexample: with tag `test` at capacity 1 and a general pool at
capacity 0, `adjust(test, 2, transferFromGeneral=true)` raises the range
error but leaves `test` at capacity 2 — the named tag's capacity is NOT
unchanged on error. -/
theorem adjust_transfer_mutates_counterexample :
    adjustModel 20 [(some "test", TagEntry.mk 1 1), (none, TagEntry.mk 0 0)]
        (some "test") 2 true =
      AdjRes.indexError [(some "test", TagEntry.mk 2 2), (none, TagEntry.mk 0 0)] ∧
    getTag [(some "test", TagEntry.mk 2 2), (none, TagEntry.mk 0 0)] (some "test") =
      some 2 ∧
    getTag [(some "test", TagEntry.mk 1 1), (none, TagEntry.mk 0 0)] (some "test") =
      some 1 := by
  decide

/-- C3 (amended): a transferring `adjust` that needs more capacity than
the general pool holds raises the range error, but does not restore state:
at the raise the named tag's capacity (and semaphore counter) has already
been increased by the general pool's previous capacity plus one, and the
general pool has been drained to capacity 0. -/
theorem adjust_transfer_error_state (fuel : Nat) (tags : Tags) (s : String) (n : Int)
    (L G : Nat) (sL : Int)
    (htag : lookupTag tags (some s) = some (TagEntry.mk L sL))
    (hgen : lookupTag tags none = some (TagEntry.mk G G))
    (hn : L + G < n.toNat) (hfuel : G < fuel) :
    ∃ t2, adjustModel fuel tags (some s) n true = AdjRes.indexError t2 ∧
      lookupTag t2 (some s) = some (TagEntry.mk (L + G + 1) (sL + G + 1)) ∧
      lookupTag t2 none = some (TagEntry.mk 0 0) := by
  have hknown : (lookupTag tags (some s)).isSome = true := by
    rw [htag]
    rfl
  have hnone : (lookupTag tags none).isNone = false := by
    rw [hgen]
    rfl
  obtain ⟨t2, hrun, ha, hb⟩ :=
    growLoop_exhausts_general G fuel tags L sL htag hgen hn hfuel
  refine ⟨t2, ?_, ha, hb⟩
  rw [adjustModel]
  simp only [hnone, Bool.and_false, Bool.false_eq_true, if_false]
  rw [if_pos hknown]
  simp only [hrun]

/-- Witness for the amended C3 at a concrete input: `t` at 1, general at 2,
requesting 5 raises with `t` left at 4 and the general pool at 0. -/
theorem adjust_transfer_error_state_witness :
    ∃ t2, adjustModel 10 [(some "t", TagEntry.mk 1 1), (none, TagEntry.mk 2 2)]
        (some "t") 5 true = AdjRes.indexError t2 ∧
      lookupTag t2 (some "t") = some (TagEntry.mk (1 + 2 + 1) (1 + 2 + 1)) ∧
      lookupTag t2 none = some (TagEntry.mk 0 0) :=
  adjust_transfer_error_state 10 [(some "t", TagEntry.mk 1 1), (none, TagEntry.mk 2 2)]
    "t" 5 1 2 1 (by decide) (by decide) (by decide) (by decide)

/-- C4 counterexample: on the general tag with capacity 1, an adjust to 2
with the transfer flag set is NOT a no-op relative to the flag being
unset: with the flag it never returns (each loop iteration undoes itself),
while without the flag it returns with the general capacity set to 2. -/
theorem adjust_general_transfer_counterexample :
    adjustModel 10 [(none, TagEntry.mk 1 1)] none 2 true = AdjRes.hang ∧
    adjustModel 10 [(none, TagEntry.mk 1 1)] none 2 false =
      AdjRes.ok [(none, TagEntry.mk 2 2)] ∧
    adjustModel 10 [(none, TagEntry.mk 1 1)] none 2 true ≠
      adjustModel 10 [(none, TagEntry.mk 1 1)] none 2 false := by
  decide

/-- C4 (amended): `adjust` on the general tag with `transferFromGeneral`
set behaves identically to the unset flag only when the clamped new limit
equals the current capacity; for any other limit the grow/shrink loop
makes no net progress on each iteration (the general entry is both source
and target of the transfer) and the call never terminates, for every
amount of fuel. -/
theorem adjust_general_transfer_behavior (fuel : Nat) (tags : Tags) (L : Nat)
    (sL : Int) (n : Int) (h : lookupTag tags none = some (TagEntry.mk L sL)) :
    (n.toNat ≠ L → adjustModel fuel tags none n true = AdjRes.hang) ∧
    (n.toNat = L → adjustModel fuel tags none n true =
      adjustModel fuel tags none n false) :=
  ⟨fun hne => adjustModel_gen_useGen_hang h hne,
   fun heq => adjustModel_gen_eq_noop h heq⟩

/-- Witness for the amended C4 at concrete inputs. -/
theorem adjust_general_transfer_behavior_witness :
    adjustModel 7 [(none, TagEntry.mk 1 1)] none 0 true = AdjRes.hang ∧
    adjustModel 7 [(none, TagEntry.mk 1 1)] none 1 true =
      adjustModel 7 [(none, TagEntry.mk 1 1)] none 1 false :=
  ⟨(adjust_general_transfer_behavior 7 [(none, TagEntry.mk 1 1)] 1 1 0
      (by decide)).1 (by decide),
   (adjust_general_transfer_behavior 7 [(none, TagEntry.mk 1 1)] 1 1 1
      (by decide)).2 (by decide)⟩

/-- C8: after a non-transferring `adjust(tag, N)` returns normally, the
limit reported for the tag by `get_tags` equals the clamped `N` (equal to
`N` itself whenever `N ≥ 0`, and to 0 for negative `N`); and for an
unknown tag the call is the direct creation at the clamped limit followed
only by the total recount — no loop runs regardless of fuel, so creation
cannot block. -/
theorem adjust_sets_requested_limit (fuel : Nat) (tags : Tags) (tag : Tag) (n : Int)
    (t2 : Tags) (h : adjustModel fuel tags tag n false = AdjRes.ok t2) :
    (0 ≤ n → getTag t2 tag = some n.toNat ∧ (n.toNat : Int) = n) ∧
    (n < 0 → getTag t2 tag = some 0) ∧
    (∀ (g : Bool) (fuel2 : Nat), lookupTag tags tag = none →
      adjustModel fuel2 tags tag n g =
        recountTotal
          (setTag
            (if g && (lookupTag tags none).isNone then setTag tags none 0 else tags)
            tag n.toNat)) := by
  refine ⟨?_, ?_, ?_⟩
  · intro hn
    exact ⟨adjustModel_ok_getTag h, Int.toNat_of_nonneg hn⟩
  · intro hn
    have h2 := adjustModel_ok_getTag h
    have h0 : n.toNat = 0 := by omega
    rwa [h0] at h2
  · intro g fuel2 hunk
    exact adjustModel_unknown_direct hunk

/-- Witness for C8 at a concrete input: adjusting `a` from 1 to 3. -/
theorem adjust_sets_requested_limit_witness :
    getTag [(some "a", TagEntry.mk 3 3)] (some "a") = some (3 : Int).toNat ∧
    ((3 : Int).toNat : Int) = 3 :=
  (adjust_sets_requested_limit 10 [(some "a", TagEntry.mk 1 1)] (some "a") 3
    [(some "a", TagEntry.mk 3 3)] (by decide)).1 (by decide)

/-- C10: a falsy key in the constructor's tag map (the empty string) is
normalized to the general tag: the built registry never contains an entry
keyed by the empty string, and when the empty-string key is the only falsy
key its capacity becomes the general pool's capacity. -/
theorem falsy_key_normalized_to_general (limit : Nat) (tagsIn : List (String × Nat))
    (t t3 : Tags) (v : Nat) (rest : List (String × Nat))
    (h1 : initPool limit tagsIn = some t)
    (h2 : ∀ kv ∈ rest, kv.1 ≠ "")
    (h3 : initPool 0 (("", v) :: rest) = some t3) :
    lookupTag t (some "") = none ∧ lookupTag t3 none = some (TagEntry.mk v v) := by
  constructor
  · rw [initPool] at h1
    by_cases he : tagsIn.isEmpty
    · rw [if_pos he] at h1
      by_cases htot : totalLimit (setTag [] none limit) > 0
      · rw [if_pos htot] at h1
        cases h1
        rw [lookupTag_setTag_ne (by simp)]
        rfl
      · rw [if_neg htot] at h1
        exact Option.noConfusion h1
    · rw [if_neg he] at h1
      have hbase : lookupTag (processTags [] 0 tagsIn).1 (some "") = none :=
        processTags_no_empty_key tagsIn [] 0 rfl
      by_cases hc : limit ≠ 0 ∧ limit ≠ (processTags [] 0 tagsIn).2
      · rw [if_pos hc] at h1
        by_cases hlt : limit < (processTags [] 0 tagsIn).2
        · rw [if_pos hlt] at h1
          exact Option.noConfusion h1
        · rw [if_neg hlt] at h1
          by_cases htot : totalLimit (setTag (processTags [] 0 tagsIn).1 none
              (limit - (processTags [] 0 tagsIn).2)) > 0
          · rw [if_pos htot] at h1
            cases h1
            rw [lookupTag_setTag_ne (by simp)]
            exact hbase
          · rw [if_neg htot] at h1
            exact Option.noConfusion h1
      · rw [if_neg hc] at h1
        by_cases htot : totalLimit (processTags [] 0 tagsIn).1 > 0
        · rw [if_pos htot] at h1
          cases h1
          exact hbase
        · rw [if_neg htot] at h1
          exact Option.noConfusion h1
  · rw [initPool] at h3
    simp only [List.isEmpty_cons, Bool.false_eq_true, if_false] at h3
    rw [if_neg (by simp)] at h3
    by_cases htot : totalLimit (processTags [] 0 (("", v) :: rest)).1 > 0
    · rw [if_pos htot] at h3
      cases h3
      rw [processTags]
      rw [processTags_none_key_preserved rest _ _ h2]
      rw [normKey, if_pos rfl]
      exact lookupTag_setTag_self
    · rw [if_neg htot] at h3
      exact Option.noConfusion h3

/-- Witness for C10 at concrete inputs. -/
theorem falsy_key_normalized_to_general_witness :
    lookupTag [(some "a", TagEntry.mk 2 2)] (some "") = none ∧
    lookupTag [(none, TagEntry.mk 4 4), (some "b", TagEntry.mk 1 1)] none =
      some (TagEntry.mk 4 4) :=
  falsy_key_normalized_to_general 0 [("a", 2)] [(some "a", TagEntry.mk 2 2)]
    [(none, TagEntry.mk 4 4), (some "b", TagEntry.mk 1 1)] 4 [("b", 1)]
    (by decide) (by decide) (by decide)

end PyPool
